import Mathlib

/-!
# Lazy initialization cell and exclusive-ownership pointer

A verification development for two C++ artifacts:

* `Lazy Initialization/lazy_initiazation.cpp`: the class template `LazyValue<T>`,
  a cell holding `optional<T> value_`, a `mutex mtx_` and the stored initializer
  `function<T()> init_`;
* `Unique pointer/unique_ptr.cpp`: the class template `UniquePtr<T>` over a raw
  pointer `raw_pointer_`, and the instance-counting `struct Item`.

## Embedding of `LazyValue<T>`

The program is embedded by explicit state passing.

* `W` is the state of everything outside the cell that the initializer can read
  or write (captured variables, globals).  The cell itself is not part of `W`:
  an initializer that re-enters the cell it belongs to would relock the
  non-recursive `std::mutex` it is called under, which has no defined behaviour.
* `init_ : W → Except E T × W` is the stored `function<T()>`: called in world
  `w` it either returns a `T` or throws an `E`, and leaves a new world.  A
  throwing call may still have changed the world.  An empty `std::function`
  is the initializer that always throws (`bad_function_call`).
* `value_ : Option T` is the `optional<T>`.
* Every member function takes `lock_guard<mutex> lock(mtx_)` on entry and the
  guard releases on every exit, a thrown exception included.  Between two
  member calls of a single thread the mutex is therefore free, and it carries no
  state in the sequential embedding.
* `Get` returns `const T&`, a reference into the slot.  The embedding returns
  the referenced value.
* Values of type `T` are moved into the slot without failure, and destroying
  one has no effect on the world.

## Embedding of concurrent calls of `Get()`

Threads that call `Get()` on one cell are embedded as a step function on a
shared state: the cell, the mutex, the world and the point each thread has
reached in `Get()`.

* A thread executes `Get()` statement by statement: the lock, the test of the
  slot, the call of the initializer, the assignment to the slot, and the return
  together with the release of the mutex by the guard.
* The mutex is the thread that holds it, if any.  A thread that reaches the lock
  while another thread holds the mutex does not move; nothing else is assumed
  of `std::mutex`.
* A schedule is a list of thread numbers; the threads execute one statement at a
  time in its order.  Every access to the slot and every call of the
  initializer is made under the mutex, so the statements of different threads
  do not race and their effects are those of some such order.
* The world is changed by the initializer only.
-/

namespace LazyInit

/-- The class `LazyValue<T>`: the slot `value_` and the stored initializer
`init_`. -/
structure LazyValue (W E T : Type) where
  /-- The field `mutable optional<T> value_`. -/
  value_ : Option T
  /-- The field `function<T()> init_`. -/
  init_ : W → Except E T × W

variable {W E T : Type}

/-- The constructor `LazyValue(function<T()> init) : init_(init) {}`: the slot
is default-initialised to `nullopt`, the initializer is stored, the body is
empty. -/
def LazyValue.construct (init : W → Except E T × W) (w : W) : LazyValue W E T × W :=
  (⟨none, init⟩, w)

/-- The implicit destructor: it destroys the three members and calls nothing
else. -/
def LazyValue.destroy (_c : LazyValue W E T) (w : W) : W :=
  w

/-- The member `HasValue`: `return value_.has_value();`.  The result is the
returned flag together with the cell and the world after the call. -/
def LazyValue.HasValue (c : LazyValue W E T) (w : W) : Bool × LazyValue W E T × W :=
  (c.value_.isSome, c, w)

/-- The member `Get`: `if (!value_) { value_ = init_(); } return *value_;`.
When `init_()` throws, the assignment does not take place and the exception
leaves `Get`. -/
def LazyValue.Get (c : LazyValue W E T) (w : W) : Except E T × LazyValue W E T × W :=
  match c.value_ with
  | some v => (Except.ok v, c, w)
  | none =>
    match c.init_ w with
    | (Except.ok v, w1) => (Except.ok v, ⟨some v, c.init_⟩, w1)
    | (Except.error e, w1) => (Except.error e, c, w1)

/-- A call a client can make on a cell. -/
inductive Call where
  | hasValue
  | get
  deriving DecidableEq

/-- What a client observes from one call. -/
inductive Reply (E T : Type) where
  /-- `HasValue()` returned `b`. -/
  | flag (b : Bool)
  /-- `Get()` returned a reference to `v`. -/
  | value (v : T)
  /-- `Get()` was left by the exception `e`. -/
  | raised (e : E)
  deriving DecidableEq

/-- One client call on a cell. -/
def step : Call → LazyValue W E T → W → Reply E T × LazyValue W E T × W
  | Call.hasValue, c, w => (Reply.flag (c.HasValue w).1, (c.HasValue w).2)
  | Call.get, c, w =>
    match c.Get w with
    | (Except.ok v, s) => (Reply.value v, s)
    | (Except.error e, s) => (Reply.raised e, s)

/-- A finite sequence of client calls on a cell, in program order. -/
def run : List Call → LazyValue W E T → W → List (Reply E T) × LazyValue W E T × W
  | [], c, w => ([], c, w)
  | op :: ops, c, w =>
    ((step op c w).1 :: (run ops (step op c w).2.1 (step op c w).2.2).1,
      (run ops (step op c w).2.1 (step op c w).2.2).2)

/-- The whole life of a cell: construction from `init`, the calls `ops`,
destruction.  The result is what the client saw and the world left behind. -/
def lifetime (init : W → Except E T × W) (ops : List Call) (w : W) : List (Reply E T) × W :=
  ((run ops (LazyValue.construct init w).1 (LazyValue.construct init w).2).1,
    LazyValue.destroy (run ops (LazyValue.construct init w).1 (LazyValue.construct init w).2).2.1
      (run ops (LazyValue.construct init w).1 (LazyValue.construct init w).2).2.2)

/-- An initializer instrumented the way a test instruments it with a call
counter: the world is extended by a log, and every invocation appends its
outcome to the log before returning or throwing.  The length of the log is the
number of invocations. -/
def recorded (init : W → Except E T × W) :
    W × List (Except E T) → Except E T × (W × List (Except E T)) :=
  fun s => ((init s.1).1, ((init s.1).2, s.2 ++ [(init s.1).1]))

/-- A cell in the state `slot` whose stored initializer is the instrumented
`init`. -/
def watched (slot : Option T) (init : W → Except E T × W) :
    LazyValue (W × List (Except E T)) E T :=
  ⟨slot, recorded init⟩

/-- Whether a call is a `Get()`. -/
def Call.isGet : Call → Bool
  | Call.get => true
  | Call.hasValue => false

/-- Whether a reply is that of a `Get()`. -/
def Reply.ofGet : Reply E T → Bool
  | Reply.flag _ => false
  | Reply.value _ => true
  | Reply.raised _ => true

/-- The slot of the cell before the first call and after every call of `ops`. -/
def slots : List Call → LazyValue W E T → W → List (Option T)
  | [], c, _ => [c.value_]
  | op :: ops, c, w => c.value_ :: slots ops (step op c w).2.1 (step op c w).2.2

/-- The reply of each call once the slot holds `v`. -/
def settled (v : T) : Call → Reply E T
  | Call.hasValue => Reply.flag true
  | Call.get => Reply.value v

/-- The number of `Get()` calls among `rs` that were left by an exception. -/
def failures : List (Reply E T) → Nat
  | [] => 0
  | Reply.raised _ :: rs => failures rs + 1
  | _ :: rs => failures rs

/-- Whether an invocation of the initializer threw. -/
def threw : Except E T → Bool
  | Except.error _ => true
  | Except.ok _ => false

/-- Where a thread stands in its call of `Get()`, statement by statement. -/
inductive Pc (E T : Type) where
  /-- Before `lock_guard<mutex> lock(mtx_);`. -/
  | start
  /-- Holding the mutex, before the test `if (!value_)`. -/
  | testing
  /-- Holding the mutex, the slot was found empty, before the call `init_()`. -/
  | calling
  /-- Holding the mutex, `init_()` has returned `v`, before the assignment
  `value_ = v`. -/
  | assigning (v : T)
  /-- Holding the mutex, before `return *value_;`. -/
  | returning
  /-- The call has returned a reference to `v` and the guard has released the
  mutex. -/
  | returned (v : T)
  /-- The call was left by the exception `e` and the guard has released the
  mutex. -/
  | raisedOut (e : E)
  deriving DecidableEq

/-- Whether a thread at this point is between the lock and the release. -/
def Pc.inCS : Pc E T → Bool
  | Pc.testing => true
  | Pc.calling => true
  | Pc.assigning _ => true
  | Pc.returning => true
  | _ => false

/-- Whether the call of the thread is over. -/
def Pc.isDone : Pc E T → Bool
  | Pc.returned _ => true
  | Pc.raisedOut _ => true
  | _ => false

/-- The largest number of statements a thread at this point still has to
execute. -/
def Pc.todo : Pc E T → Nat
  | Pc.start => 5
  | Pc.testing => 4
  | Pc.calling => 3
  | Pc.assigning _ => 2
  | Pc.returning => 1
  | Pc.returned _ => 0
  | Pc.raisedOut _ => 0

/-- One cell shared by threads that each make one call of `Get()`: the cell,
the field `mutable mutex mtx_` (the thread holding it, if any), the world, and
where each thread stands.  Thread `t` is the `t`-th entry of `pcs`. -/
structure Shared (W E T : Type) where
  /-- The fields `value_` and `init_` of the shared cell. -/
  cell : LazyValue W E T
  /-- The field `mutable mutex mtx_`: the thread that holds it. -/
  mtx_ : Option Nat
  /-- The state outside the cell. -/
  world : W
  /-- Where each thread stands. -/
  pcs : List (Pc E T)

/-- Thread `t` executes its next statement of `Get()`:
`lock_guard<mutex> lock(mtx_);` (the thread waits while another holds the mutex),
the test `if (!value_)`, the call `init_()` (an exception unwinds through the
guard, which releases the mutex), the assignment `value_ = ...`, and
`return *value_;` with the release of the mutex by the guard.  A thread that
waits, a thread whose call is over and a thread that does not exist leave the
state as it is; so does a thread at `return *value_;` when the slot is empty,
where the dereference has no defined behaviour. -/
def Shared.move (t : Nat) (s : Shared W E T) : Shared W E T :=
  match s.pcs[t]? with
  | none => s
  | some Pc.start =>
    match s.mtx_ with
    | none => ⟨s.cell, some t, s.world, s.pcs.set t Pc.testing⟩
    | some _ => s
  | some Pc.testing =>
    match s.cell.value_ with
    | none => ⟨s.cell, s.mtx_, s.world, s.pcs.set t Pc.calling⟩
    | some _ => ⟨s.cell, s.mtx_, s.world, s.pcs.set t Pc.returning⟩
  | some Pc.calling =>
    match s.cell.init_ s.world with
    | (Except.ok v, w1) => ⟨s.cell, s.mtx_, w1, s.pcs.set t (Pc.assigning v)⟩
    | (Except.error e, w1) => ⟨s.cell, none, w1, s.pcs.set t (Pc.raisedOut e)⟩
  | some (Pc.assigning v) =>
    ⟨⟨some v, s.cell.init_⟩, s.mtx_, s.world, s.pcs.set t Pc.returning⟩
  | some Pc.returning =>
    match s.cell.value_ with
    | some v => ⟨s.cell, none, s.world, s.pcs.set t (Pc.returned v)⟩
    | none => s
  | some (Pc.returned _) => s
  | some (Pc.raisedOut _) => s

/-- An interleaving: the threads named by the schedule move one statement at a
time, in the order of the schedule. -/
def Shared.exec : List Nat → Shared W E T → Shared W E T
  | [], s => s
  | t :: ts, s => Shared.exec ts (s.move t)

/-- The state in which `n` threads are about to call `Get()` on the cell `c`:
the mutex is free and no thread has started. -/
def Shared.spawn (n : Nat) (c : LazyValue W E T) (w : W) : Shared W E T :=
  ⟨c, none, w, List.replicate n Pc.start⟩

/-- Whether the call of every thread is over. -/
def Shared.finished (s : Shared W E T) : Bool :=
  s.pcs.all Pc.isDone

/-- The largest number of statements the threads still have to execute. -/
def Shared.todo (s : Shared W E T) : Nat :=
  (s.pcs.map Pc.todo).sum

/-- The state reached when `n` threads call `Get()` on a cell with an empty slot
and the instrumented initializer `init`, under the schedule `sched`. -/
def race (init : W → Except E T × W) (n : Nat) (sched : List Nat)
    (w : W × List (Except E T)) : Shared (W × List (Except E T)) E T :=
  (Shared.spawn n (watched none init) w).exec sched

/-- An initializer that increments a shared counter, which is the world, and
returns the value the counter has after the increment. -/
def counting : Nat → Except E Nat × Nat :=
  fun k => (Except.ok (k + 1), k + 1)

/-- What holds of every state that `n` threads reach from `Shared.spawn` on a
cell with an empty slot whose instrumented initializer returns `V` in the world
`w0`, the log being `log0` at the start.  The stored initializer is kept; the
threads between lock and release are exactly the holder of the mutex; and the
state is in one of three phases: the initializer has not been called yet, it
has returned `V` to the holder of the mutex and the slot is still empty, or the
slot holds `V`. -/
def Shared.Sound (init : W → Except E T × W) (w0 : W) (log0 : List (Except E T)) (V : T)
    (n : Nat) (s : Shared (W × List (Except E T)) E T) : Prop :=
  s.cell.init_ = recorded init ∧ s.pcs.length = n ∧
  (∀ (t : Nat) (pc : Pc E T), s.pcs[t]? = some pc → (pc.inCS = true ↔ s.mtx_ = some t)) ∧
  (∀ t : Nat, s.mtx_ = some t → ∃ pc : Pc E T, s.pcs[t]? = some pc ∧ pc.inCS = true) ∧
  ((s.cell.value_ = none ∧ s.world = (w0, log0) ∧
      ∀ (t : Nat) (pc : Pc E T), s.pcs[t]? = some pc → pc = Pc.start ∨ pc = Pc.testing ∨ pc = Pc.calling) ∨
    (s.cell.value_ = none ∧ s.world = ((init w0).2, log0 ++ [Except.ok V]) ∧
      s.mtx_ ≠ none ∧
      ∀ (t : Nat) (pc : Pc E T), s.pcs[t]? = some pc → pc = Pc.start ∨ pc = Pc.assigning V) ∨
    (s.cell.value_ = some V ∧ s.world = ((init w0).2, log0 ++ [Except.ok V]) ∧
      ∀ (t : Nat) (pc : Pc E T), s.pcs[t]? = some pc →
        pc = Pc.start ∨ pc = Pc.testing ∨ pc = Pc.returning ∨ pc = Pc.returned V))

end LazyInit

/-!
## Embedding of `UniquePtr<T>` and `Item`

`UniquePtr<T>` is instantiated in the source with `T = Item` only, and what
`delete raw_pointer_` does depends on the destructor of `T`; the embedding is
that of `UniquePtr<Item>`.

* A raw pointer `Item*` is an `Option Nat`: `none` is `nullptr`, `some a` is
  the address `a`.
* `Store` is the state of the free store together with the static member
  `Item::counter`: the set of addresses holding an `Item` whose lifetime has
  begun and not ended, the contents found at each address, and the counter.
  The counter is an `int` in the source; it is an unbounded integer here.
* An operation without defined behaviour (`delete` of a non-null pointer to no
  live object, dereferencing such a pointer or `nullptr`) yields `none`.
* Every member function returns its result together with the smart pointer and
  the store after the call.
* The move constructor and `Swap` take a second smart pointer by reference; they
  are embedded over a `Frame` of smart pointers, in which the two references
  are two places that may coincide.
-/

namespace UniquePointer

/-- The non-static data of `struct Item`. -/
structure Item where
  /-- The member `int value`. -/
  value : Int
  deriving DecidableEq

/-- A raw pointer `Item*`; `none` is `nullptr`. -/
abbrev Ptr := Option Nat

/-- The free store and the static `Item::counter`. -/
structure Store where
  /-- Addresses of the `Item` objects that are alive. -/
  live : Finset Nat
  /-- The object stored at an address (meaningful at live addresses). -/
  item : Nat → Item
  /-- The static member `int Item::counter`. -/
  counter : Int

/-- The state at program start: no `Item` exists and `Item::counter = 0`. -/
def Store.initial : Store :=
  ⟨∅, fun _ => ⟨0⟩, 0⟩

/-- The expression `new Item(v)`, the allocation function handing out the
address `a`: the constructor `Item(int v = 0) : value(v) { ++counter; }` runs
on the new storage.  The allocation function never hands out the address of a
live object; the result is `none` for such an `a`. -/
def Store.newItem (s : Store) (a : Nat) (v : Int) : Option (Ptr × Store) :=
  if a ∈ s.live then none
  else some (some a, ⟨insert a s.live, Function.update s.item a ⟨v⟩, s.counter + 1⟩)

/-- The expression `delete p` for `p` of type `Item*`: nothing for `nullptr`;
otherwise the destructor `~Item() { --counter; }` runs and the storage is
released.  Without defined behaviour when `p` is not null and points to no
live object. -/
def Store.delete (s : Store) (p : Ptr) : Option Store :=
  match p with
  | none => some s
  | some a => if a ∈ s.live then some ⟨s.live.erase a, s.item, s.counter - 1⟩ else none

/-- Reading the member `value` through a raw pointer, `p->value`. -/
def Store.value (s : Store) (p : Ptr) : Option Int :=
  match p with
  | none => none
  | some a => if a ∈ s.live then some (s.item a).value else none

/-- Whether `delete p` has defined behaviour: `p` is null or points to a live
object. -/
def Store.deletable (s : Store) (p : Ptr) : Bool :=
  match p with
  | none => true
  | some a => decide (a ∈ s.live)

/-- The class `UniquePtr<Item>`: its only member `T* raw_pointer_`. -/
structure UniquePtr where
  /-- The field `T* raw_pointer_`. -/
  raw_pointer_ : Ptr
  deriving DecidableEq

/-- The default constructor `UniquePtr() : raw_pointer_(nullptr) {}`. -/
def UniquePtr.empty : UniquePtr :=
  ⟨none⟩

/-- The constructor `explicit UniquePtr(T* ptr) : raw_pointer_(ptr) {}`. -/
def UniquePtr.construct (ptr : Ptr) : UniquePtr :=
  ⟨ptr⟩

/-- The member `T* operator->() const { return raw_pointer_; }`. -/
def UniquePtr.arrow (u : UniquePtr) (s : Store) : Ptr × UniquePtr × Store :=
  (u.raw_pointer_, u, s)

/-- The member `T& operator*() const { return *raw_pointer_; }`.  The returned
reference is the address of the object it denotes. -/
def UniquePtr.star (u : UniquePtr) (s : Store) : Option (Nat × UniquePtr × Store) :=
  match u.raw_pointer_ with
  | none => none
  | some a => if a ∈ s.live then some (a, u, s) else none

/-- The member `Release`:
`T* temporal_ptr = raw_pointer_; raw_pointer_ = nullptr; return temporal_ptr;`. -/
def UniquePtr.Release (u : UniquePtr) (s : Store) : Ptr × UniquePtr × Store :=
  (u.raw_pointer_, ⟨none⟩, s)

/-- The member `Reset`: `delete raw_pointer_; raw_pointer_ = ptr;`. -/
def UniquePtr.Reset (u : UniquePtr) (ptr : Ptr) (s : Store) : Option (UniquePtr × Store) :=
  match s.delete u.raw_pointer_ with
  | none => none
  | some s1 => some (⟨ptr⟩, s1)

/-- The member `T* Get() const { return raw_pointer_; }`. -/
def UniquePtr.Get (u : UniquePtr) (s : Store) : Ptr × UniquePtr × Store :=
  (u.raw_pointer_, u, s)

/-- The destructor `~UniquePtr() { delete raw_pointer_; raw_pointer_ = nullptr; }`.
The object is gone afterwards; the result is the store it leaves. -/
def UniquePtr.destroy (u : UniquePtr) (s : Store) : Option Store :=
  s.delete u.raw_pointer_

/-- The operator `UniquePtr& operator=(nullptr_t)`:
`delete raw_pointer_; raw_pointer_ = nullptr; return *this;`. -/
def UniquePtr.assignNullptr (u : UniquePtr) (s : Store) : Option (UniquePtr × Store) :=
  match s.delete u.raw_pointer_ with
  | none => none
  | some s1 => some (⟨none⟩, s1)

/-- The `UniquePtr<Item>` objects of the program, by the place each one
occupies.  A member function that takes another smart pointer by reference
works on two places of one frame, which may be the same place.  A place where
no object has been constructed yet holds an arbitrary value. -/
abbrev Frame := Nat → UniquePtr

/-- The move constructor `UniquePtr(UniquePtr&& other)`, constructing at the
place `self` from the object at the place `other`:
`if (this == &other) { return; }`
`raw_pointer_ = other.raw_pointer_; other.raw_pointer_ = nullptr;`.
The constructor has no member initialiser, so the object under construction
starts with an indeterminate `raw_pointer_`, whatever the place held before:
`junk` is that indeterminate value.  On the guard path it is what the object
is left with. -/
def UniquePtr.moveConstruct (junk : Ptr) (self other : Nat) (m : Frame) (s : Store) :
    Frame × Store :=
  if self = other then (Function.update m self ⟨junk⟩, s)
  else
    (Function.update
      (Function.update (Function.update m self ⟨junk⟩) self
        ⟨(Function.update m self ⟨junk⟩ other).raw_pointer_⟩)
      other ⟨none⟩, s)

/-- The member `Swap`, called on the object at `self` with the object at
`other`: `swap(other.raw_pointer_, raw_pointer_);`.  The `std::swap` of two
pointers is the three assignments the source keeps in a comment under the call:
`T* temporal_ptr = other.raw_pointer_; other.raw_pointer_ = raw_pointer_;`
`raw_pointer_ = temporal_ptr;`. -/
def UniquePtr.Swap (self other : Nat) (m : Frame) (s : Store) : Frame × Store :=
  (Function.update (Function.update m other ⟨(m self).raw_pointer_⟩) self
      ⟨(m other).raw_pointer_⟩, s)

end UniquePointer

/-! ## Properties of `LazyValue<T>` -/

namespace LazyInit

variable {W E T : Type}

/-- Once the slot holds `v`, a call answers from the slot and changes nothing. -/
theorem step_present (v : T) (f : W → Except E T × W) (w : W) (op : Call) :
    step op ⟨some v, f⟩ w = (settled v op, ⟨some v, f⟩, w) := by
  cases op <;> rfl

/-- The calls of a sequence are made one after the other. -/
theorem run_cons (op : Call) (ops : List Call) (c : LazyValue W E T) (w : W) :
    run (op :: ops) c w
      = ((step op c w).1 :: (run ops (step op c w).2.1 (step op c w).2.2).1,
          (run ops (step op c w).2.1 (step op c w).2.2).2) :=
  rfl

/-- Once the slot holds `v`, every sequence of calls answers from the slot and
changes nothing. -/
theorem run_present (v : T) (f : W → Except E T × W) (w : W) (ops : List Call) :
    run ops ⟨some v, f⟩ w = (ops.map (settled v), ⟨some v, f⟩, w) := by
  induction ops with
  | nil => rfl
  | cons op ops ih => simp only [run, step_present, ih, List.map_cons]

/-- A block of `HasValue()` calls reports the slot and changes nothing. -/
theorem run_replicate_hasValue (c : LazyValue W E T) (w : W) (n : Nat) :
    run (List.replicate n Call.hasValue) c w
      = (List.replicate n (Reply.flag c.value_.isSome), c, w) := by
  induction n with
  | zero => rfl
  | succ n ih =>
    simp only [List.replicate_succ, run, step, LazyValue.HasValue, ih]

/-- Calls made one block after the other. -/
theorem run_append (xs ys : List Call) (c : LazyValue W E T) (w : W) :
    run (xs ++ ys) c w
      = ((run xs c w).1 ++ (run ys (run xs c w).2.1 (run xs c w).2.2).1,
          (run ys (run xs c w).2.1 (run xs c w).2.2).2) := by
  induction xs generalizing c w with
  | nil => rfl
  | cons x xs ih => simp only [List.cons_append, run_cons, ih]

/-- A `Get()` on an empty slot whose initializer returns `V`. -/
theorem get_recorded_ok (init : W → Except E T × W) (w : W) (log : List (Except E T)) (V : T)
    (hV : (init w).1 = Except.ok V) :
    (watched none init).Get (w, log)
      = (Except.ok V, watched (some V) init, ((init w).2, log ++ [Except.ok V])) := by
  simp only [LazyValue.Get, watched, recorded, hV]

/-- A `Get()` on an empty slot whose initializer throws `e`. -/
theorem get_recorded_error (init : W → Except E T × W) (w : W) (log : List (Except E T)) (e : E)
    (he : (init w).1 = Except.error e) :
    (watched none init).Get (w, log)
      = (Except.error e, watched none init, ((init w).2, log ++ [Except.error e])) := by
  simp only [LazyValue.Get, watched, recorded, he]

/-- C1 (single evaluation, correct value).  Let the initializer return `V` in
the world in which the cell is used.  Over the whole life of a cell built from
it, with any number `n` of `HasValue()` calls before the first `Get()` and any
calls `ops` after it: every `HasValue()` before the first `Get()` returns
false, the first `Get()` returns `V`, every later `HasValue()` returns true and
every later `Get()` returns `V`, and the log of invocations has grown by
exactly one entry, the successful one. -/
theorem single_evaluation (init : W → Except E T × W) (w : W) (log : List (Except E T))
    (V : T) (hV : (init w).1 = Except.ok V) (n : Nat) (ops : List Call) :
    lifetime (recorded init) (List.replicate n Call.hasValue ++ Call.get :: ops) (w, log)
      = (List.replicate n (Reply.flag false) ++ Reply.value V :: ops.map (settled V),
          ((init w).2, log ++ [Except.ok V])) := by
  have hc : (⟨none, recorded init⟩ : LazyValue (W × List (Except E T)) E T)
      = watched none init := rfl
  simp only [lifetime, LazyValue.construct, LazyValue.destroy, run_append,
    run_replicate_hasValue, run_cons, step, hc, get_recorded_ok init w log V hV]
  simp only [watched, run_present, Option.isSome_none]

/-- The scenario of `UseExample`: the initializer returns the captured string;
`HasValue()` is false, both `Get()` calls return the string, and the
initializer ran once. -/
theorem single_evaluation_witness :
    ((fun (u : Unit) => ((Except.ok "Giant amounts of memory" : Except Unit String), u)) ()).1
      = Except.ok "Giant amounts of memory" ∧
    lifetime (recorded (fun (u : Unit) => ((Except.ok "Giant amounts of memory" : Except Unit String), u)))
        (List.replicate 1 Call.hasValue ++ Call.get :: [Call.get]) ((), [])
      = (List.replicate 1 (Reply.flag false) ++ Reply.value "Giant amounts of memory"
            :: [Call.get].map (settled "Giant amounts of memory"),
          ((), [] ++ [Except.ok "Giant amounts of memory"])) :=
  ⟨rfl, single_evaluation
    (fun (u : Unit) => ((Except.ok "Giant amounts of memory" : Except Unit String), u))
    () [] "Giant amounts of memory" rfl 1 [Call.get]⟩

/-- C2 (no eager evaluation).  The constructor stores the initializer in a cell
with an empty slot and leaves the world, the log of invocations included, as it
was; the destructor leaves the world as it was; and over the life of a cell
on which only `HasValue()` was called, any number `n` of times, every call
returned false and the log of invocations is unchanged. -/
theorem no_eager_evaluation (init : W → Except E T × W) (w : W) (log : List (Except E T))
    (n : Nat) :
    LazyValue.construct (recorded init) (w, log) = (⟨none, recorded init⟩, (w, log)) ∧
    (LazyValue.construct (recorded init) (w, log)).1.destroy
        (LazyValue.construct (recorded init) (w, log)).2 = (w, log) ∧
    lifetime (recorded init) (List.replicate n Call.hasValue) (w, log)
      = (List.replicate n (Reply.flag false), (w, log)) := by
  refine ⟨rfl, rfl, ?_⟩
  simp only [lifetime, LazyValue.construct, LazyValue.destroy, run_replicate_hasValue,
    Option.isSome_none]

/-- The reply of a `Get()` call on an instrumented cell with an empty slot
whose initializer returns `V`. -/
theorem step_get_recorded_ok (init : W → Except E T × W) (w : W) (log : List (Except E T))
    (V : T) (hV : (init w).1 = Except.ok V) :
    step Call.get (watched none init) (w, log)
      = (Reply.value V, watched (some V) init, ((init w).2, log ++ [Except.ok V])) := by
  simp only [step, get_recorded_ok init w log V hV]

/-- The reply of a `Get()` call on an instrumented cell with an empty slot
whose initializer throws `e`. -/
theorem step_get_recorded_error (init : W → Except E T × W) (w : W) (log : List (Except E T))
    (e : E) (he : (init w).1 = Except.error e) :
    step Call.get (watched none init) (w, log)
      = (Reply.raised e, watched none init, ((init w).2, log ++ [Except.error e])) := by
  simp only [step, get_recorded_error init w log e he]

/-- A `HasValue()` call as a client call. -/
theorem step_hasValue (c : LazyValue W E T) (w : W) :
    step Call.hasValue c w = (Reply.flag c.value_.isSome, c, w) :=
  rfl

/-- C3 (failure does not poison).  Let the initializer throw `e` when a
`Get()` is made on a cell with an empty slot.  Then that `Get()` is left by
`e`, the slot is still empty and `HasValue()` returns false, and the log shows
one invocation; the next `Get()` invokes the initializer again, whatever the
outcome (the log shows a second entry, the outcome of the initializer in the world
left by the first).  If this second invocation returns `V`, the second `Get()`
returns `V`, the slot holds `V`, and whatever calls `ops` follow, every `Get()`
returns `V`, every `HasValue()` returns true and the log stays at two
entries. -/
theorem failure_does_not_poison (init : W → Except E T × W) (w : W)
    (log : List (Except E T)) (e : E) (hfail : (init w).1 = Except.error e) (V : T)
    (ops : List Call) :
    ((watched none init).Get (w, log)).1 = Except.error e ∧
    ((watched none init).Get (w, log)).2.1.value_ = none ∧
    (run [Call.get, Call.hasValue] (watched none init) (w, log)).1
      = [Reply.raised e, Reply.flag false] ∧
    ((watched none init).Get (w, log)).2.2.2 = log ++ [Except.error e] ∧
    (run [Call.get, Call.hasValue, Call.get] (watched none init) (w, log)).2.2.2
      = log ++ [Except.error e, (init (init w).2).1] ∧
    ((init (init w).2).1 = Except.ok V →
      run (Call.get :: Call.hasValue :: Call.get :: ops) (watched none init) (w, log)
        = (Reply.raised e :: Reply.flag false :: Reply.value V :: ops.map (settled V),
            watched (some V) init,
            ((init (init w).2).2, log ++ [Except.error e, Except.ok V]))) := by
  refine ⟨?_, ?_, ?_, ?_, ?_, ?_⟩
  · rw [get_recorded_error init w log e hfail]
  · rw [get_recorded_error init w log e hfail]; rfl
  · simp only [run_cons, step_get_recorded_error init w log e hfail, step_hasValue, run]
    rfl
  · rw [get_recorded_error init w log e hfail]
  · simp only [run_cons, step_get_recorded_error init w log e hfail, step_hasValue, run]
    cases h2 : (init (init w).2).1 with
    | ok v =>
      simp [step_get_recorded_ok init (init w).2 (log ++ [Except.error e]) v h2]
    | error e2 =>
      simp [step_get_recorded_error init (init w).2 (log ++ [Except.error e]) e2 h2]
  · intro h2
    simp only [run_cons, step_get_recorded_error init w log e hfail, step_hasValue,
      step_get_recorded_ok init (init w).2 (log ++ [Except.error e]) V h2]
    simp [watched, run_present]

/-- An initializer that throws on its first invocation (world `0`) and returns
`7` afterwards: the first `Get()` is left by the exception, `HasValue()` is
false, the second `Get()` returns `7`, and a third does not invoke it again. -/
theorem failure_does_not_poison_witness :
    ((fun (k : Nat) => (if k = 0 then (Except.error "boom" : Except String Nat)
        else Except.ok 7, k + 1)) 0).1 = Except.error "boom" ∧
    (run (Call.get :: Call.hasValue :: Call.get :: [Call.get, Call.hasValue])
        (watched none (fun (k : Nat) => (if k = 0 then (Except.error "boom" : Except String Nat)
          else Except.ok 7, k + 1))) (0, []))
      = (Reply.raised "boom" :: Reply.flag false :: Reply.value 7
            :: [Call.get, Call.hasValue].map (settled 7),
          watched (some 7) (fun (k : Nat) => (if k = 0 then (Except.error "boom" : Except String Nat)
            else Except.ok 7, k + 1)),
          (2, [] ++ [Except.error "boom", Except.ok 7])) :=
  ⟨rfl, (failure_does_not_poison
    (fun (k : Nat) => (if k = 0 then (Except.error "boom" : Except String Nat)
      else Except.ok 7, k + 1)) 0 [] "boom" rfl 7 [Call.get, Call.hasValue]).2.2.2.2.2 rfl⟩

/-- No reply given from a populated slot is an exception. -/
theorem failures_map_settled (v : T) (ops : List Call) :
    failures (ops.map (settled v) : List (Reply E T)) = 0 := by
  induction ops with
  | nil => rfl
  | cons op ops ih => cases op <;> simpa [failures, settled] using ih

/-- The invocations made by a sequence of calls on an instrumented cell with
an empty slot: the log grows by a list `L` in which every entry but the last
is an exception, and `L` is at most one longer than the number of `Get()`
calls left by an exception. -/
theorem run_recorded_absent (init : W → Except E T × W) (ops : List Call) (w : W)
    (log : List (Except E T)) :
    ∃ L : List (Except E T),
      (run ops (watched none init) (w, log)).2.2.2 = log ++ L ∧
      (∀ r ∈ L.dropLast, threw r = true) ∧
      L.length ≤ failures (run ops (watched none init) (w, log)).1 + 1 := by
  induction ops generalizing w log with
  | nil => exact ⟨[], by simp [run], by simp, by simp⟩
  | cons op ops ih =>
    cases op with
    | hasValue =>
      obtain ⟨L, h1, h2, h3⟩ := ih w log
      refine ⟨L, ?_, h2, ?_⟩
      · simpa only [run_cons, step_hasValue] using h1
      · simpa only [run_cons, step_hasValue, failures] using h3
    | get =>
      cases h : (init w).1 with
      | ok v =>
        refine ⟨[Except.ok v], ?_, by simp, ?_⟩
        · simp only [run_cons, step_get_recorded_ok init w log v h]
          simp [watched, run_present]
        · simp
      | error e =>
        obtain ⟨L, h1, h2, h3⟩ := ih (init w).2 (log ++ [Except.error e])
        refine ⟨Except.error e :: L, ?_, ?_, ?_⟩
        · simp only [run_cons, step_get_recorded_error init w log e h]
          simpa using h1
        · intro r hr
          cases L with
          | nil => simp at hr
          | cons x xs =>
            rw [List.dropLast_cons₂] at hr
            rcases List.mem_cons.mp hr with hr | hr
            · subst hr; rfl
            · exact h2 r hr
        · simp only [run_cons, step_get_recorded_error init w log e h, failures,
            List.length_cons]
          omega

/-- C4, as stated, fails: an initializer that always throws is invoked by each
of two `Get()` calls, so the log of a cell on which `Get()` was called twice
has two entries. -/
theorem invoked_at_most_once_counterexample :
    ¬ (lifetime (recorded (fun (u : Unit) => ((Except.error "boom" : Except String Nat), u)))
        [Call.get, Call.get] ((), [])).2.2.length ≤ 1 := by
  decide

/-- C4, amended.  For every initializer and every finite sequence of
`HasValue()` and `Get()` calls made on one cell between its construction and
its destruction, the invocations `L` of the initializer over the lifetime of the cell
are such that every invocation but the last one threw (so at most one
invocation returns, and none follows it), and their number is at most one more
than the number of `Get()` calls left by an exception (so it is at most one
when no `Get()` fails). -/
theorem invoked_once_until_success (init : W → Except E T × W) (ops : List Call) (w : W)
    (log : List (Except E T)) :
    ∃ L : List (Except E T),
      (lifetime (recorded init) ops (w, log)).2.2 = log ++ L ∧
      L.dropLast.all threw = true ∧
      L.length ≤ failures (lifetime (recorded init) ops (w, log)).1 + 1 := by
  obtain ⟨L, h1, h2, h3⟩ := run_recorded_absent init ops w log
  exact ⟨L, h1, List.all_eq_true.mpr h2, h3⟩

/-- From a populated slot the recorded slots are all that same slot. -/
theorem slots_present (v : T) (f : W → Except E T × W) (w : W) (ops : List Call) :
    slots ops ⟨some v, f⟩ w = List.replicate (ops.length + 1) (some v) := by
  induction ops with
  | nil => rfl
  | cons op ops ih =>
    simp only [slots, step_present, ih, List.length_cons]
    rfl

/-- The slots a cell goes through are a block of empty slots followed by a
block of one and the same slot. -/
theorem slots_shape (ops : List Call) (c : LazyValue W E T) (w : W) :
    ∃ (k m : Nat) (s : Option T),
      slots ops c w = List.replicate k none ++ List.replicate m s := by
  induction ops generalizing c w with
  | nil => exact ⟨0, 1, c.value_, rfl⟩
  | cons op ops ih =>
    rcases c with ⟨slot, f⟩
    cases slot with
    | some v => exact ⟨0, (op :: ops).length + 1, some v, by simp [slots_present]⟩
    | none =>
      obtain ⟨k, m, s, h⟩ := ih (step op ⟨none, f⟩ w).2.1 (step op ⟨none, f⟩ w).2.2
      exact ⟨k + 1, m, s, by simp only [slots, h, List.replicate_succ, List.cons_append]⟩

/-- C5 (slot monotonicity).  A call of either kind on a cell whose slot holds
`v`, whatever the stored initializer `f` does, leaves the slot holding `v`; so
does every sequence of calls; and over any sequence of calls on any cell `c`
the slots observed before the first call and after each call are a block of
empty slots followed by a block of one and the same slot: the slot is filled at
most once, is never emptied and never changes its value. -/
theorem slot_monotone (v : T) (f : W → Except E T × W) (c : LazyValue W E T) (w : W)
    (op : Call) (ops : List Call) :
    (step op ⟨some v, f⟩ w).2.1.value_ = some v ∧
    (run ops ⟨some v, f⟩ w).2.1.value_ = some v ∧
    (∃ (k m : Nat) (s : Option T),
      slots ops c w = List.replicate k none ++ List.replicate m s) := by
  refine ⟨?_, ?_, slots_shape ops c w⟩
  · rw [step_present]
  · rw [run_present]

/-- The reply of a `Get()` call is a value or an exception. -/
theorem step_get_ofGet (c : LazyValue W E T) (w : W) :
    (step Call.get c w).1.ofGet = true := by
  simp only [step]
  rcases h : c.Get w with ⟨r, s⟩
  cases r <;> rfl

/-- Leaving the `HasValue()` calls out of a sequence of calls changes neither
the cell and world it ends in nor the replies of its `Get()` calls. -/
theorem run_filter_isGet (ops : List Call) (c : LazyValue W E T) (w : W) :
    (run (ops.filter Call.isGet) c w).2 = (run ops c w).2 ∧
    (run (ops.filter Call.isGet) c w).1 = (run ops c w).1.filter Reply.ofGet := by
  induction ops generalizing c w with
  | nil => exact ⟨rfl, rfl⟩
  | cons op ops ih =>
    cases op with
    | hasValue =>
      have h := ih c w
      simpa [Call.isGet, run_cons, step_hasValue, Reply.ofGet] using h
    | get =>
      have h := ih (step Call.get c w).2.1 (step Call.get c w).2.2
      simpa [Call.isGet, run_cons, step_get_ofGet] using h

/-- C6 (`HasValue()` is a pure observer).  In every state of the cell and of
the world, `HasValue()` returns true exactly when the slot holds a value and
leaves the cell (slot and stored initializer) and the world as they were; with
an instrumented initializer the log of invocations is part of that world, so no
invocation takes place.  It returns a `Bool` in every state: it has no failing
outcome.  Consequently a sequence of calls `ops` and the same sequence with its
`HasValue()` calls left out end in the same cell and world, their `Get()` calls
get the same replies, and any calls `later` made after them get the same
replies. -/
theorem hasValue_pure_observer (c : LazyValue W E T) (w : W) (slot : Option T)
    (init : W → Except E T × W) (log : List (Except E T)) (ops later : List Call) :
    ((c.HasValue w).1 = true ↔ ∃ v, c.value_ = some v) ∧
    (c.HasValue w).2 = (c, w) ∧
    ((watched slot init).HasValue (w, log)).2 = (watched slot init, (w, log)) ∧
    (run (ops.filter Call.isGet) c w).2 = (run ops c w).2 ∧
    (run (ops.filter Call.isGet) c w).1 = (run ops c w).1.filter Reply.ofGet ∧
    run later (run (ops.filter Call.isGet) c w).2.1 (run (ops.filter Call.isGet) c w).2.2
      = run later (run ops c w).2.1 (run ops c w).2.2 := by
  refine ⟨?_, rfl, rfl, (run_filter_isGet ops c w).1, (run_filter_isGet ops c w).2, ?_⟩
  · simp only [LazyValue.HasValue, Option.isSome_iff_exists]
  · rw [(run_filter_isGet ops c w).1]

end LazyInit

/-! ## Properties of concurrent calls of `Get()` -/

namespace LazyInit

variable {W E T : Type}

/-- What a thread list holds after one entry was replaced. -/
theorem getElem?_set_cases {α : Type} (l : List α) (t u : Nat) (a q : α)
    (h : (l.set t a)[u]? = some q) : (u = t ∧ q = a) ∨ (u ≠ t ∧ l[u]? = some q) := by
  by_cases hu : t = u
  · subst hu
    rw [List.getElem?_set] at h
    simp only [if_true] at h
    split at h
    · exact Or.inl ⟨rfl, (Option.some.inj h).symm⟩
    · exact absurd h (by simp)
  · rw [List.getElem?_set_ne hu] at h
    exact Or.inr ⟨fun e => hu e.symm, h⟩

/-- The replaced entry of a thread list. -/
theorem getElem?_set_here {α : Type} (l : List α) (t : Nat) (a p : α) (h : l[t]? = some p) :
    (l.set t a)[t]? = some a :=
  List.getElem?_set_self (List.getElem?_eq_some.mp h).1

/-- A property of every thread survives the move of one thread to a point that
has the property. -/
theorem forall_set {α : Type} (P : α → Prop) (l : List α) (t : Nat) (a : α)
    (h : ∀ (u : Nat) (q : α), l[u]? = some q → P q) (ha : P a) :
    ∀ (u : Nat) (q : α), (l.set t a)[u]? = some q → P q := by
  intro u q hq
  rcases getElem?_set_cases l t u a q hq with ⟨_, rfl⟩ | ⟨_, hq1⟩
  · exact ha
  · exact h u q hq1

/-- The holder of the mutex after a thread took the free mutex. -/
theorem excl_acquire (pcs : List (Pc E T)) (t : Nat) (a p : Pc E T) (hp : pcs[t]? = some p)
    (ha : a.inCS = true)
    (h1 : ∀ (u : Nat) (q : Pc E T), pcs[u]? = some q →
      (q.inCS = true ↔ (none : Option Nat) = some u)) :
    (∀ (u : Nat) (q : Pc E T), (pcs.set t a)[u]? = some q →
      (q.inCS = true ↔ some t = some u)) ∧
    (∀ u : Nat, some t = some u → ∃ q : Pc E T, (pcs.set t a)[u]? = some q ∧ q.inCS = true) := by
  constructor
  · intro u q hq
    rcases getElem?_set_cases pcs t u a q hq with ⟨rfl, rfl⟩ | ⟨hne, hq1⟩
    · simp [ha]
    · have h := h1 u q hq1
      constructor
      · intro hq2
        exact absurd (h.mp hq2) (by simp)
      · intro e
        exact absurd (Option.some.inj e).symm hne
  · intro u hu
    cases hu
    exact ⟨a, getElem?_set_here pcs t a p hp, ha⟩

/-- The holder of the mutex after it executed a statement under the lock. -/
theorem excl_keep (pcs : List (Pc E T)) (m : Option Nat) (t : Nat) (a p : Pc E T)
    (hp : pcs[t]? = some p) (hpcs : p.inCS = true) (ha : a.inCS = true)
    (h1 : ∀ (u : Nat) (q : Pc E T), pcs[u]? = some q → (q.inCS = true ↔ m = some u)) :
    (∀ (u : Nat) (q : Pc E T), (pcs.set t a)[u]? = some q → (q.inCS = true ↔ m = some u)) ∧
    (∀ u : Nat, m = some u → ∃ q : Pc E T, (pcs.set t a)[u]? = some q ∧ q.inCS = true) := by
  have hm : m = some t := (h1 t p hp).mp hpcs
  constructor
  · intro u q hq
    rcases getElem?_set_cases pcs t u a q hq with ⟨rfl, rfl⟩ | ⟨_, hq1⟩
    · simp [ha, hm]
    · exact h1 u q hq1
  · intro u hu
    have : u = t := by rw [hm] at hu; exact (Option.some.inj hu).symm
    subst this
    exact ⟨a, getElem?_set_here pcs u a p hp, ha⟩

/-- No thread holds the mutex after its holder released it. -/
theorem excl_release (pcs : List (Pc E T)) (m : Option Nat) (t : Nat) (a p : Pc E T)
    (hp : pcs[t]? = some p) (hpcs : p.inCS = true) (ha : a.inCS = false)
    (h1 : ∀ (u : Nat) (q : Pc E T), pcs[u]? = some q → (q.inCS = true ↔ m = some u)) :
    (∀ (u : Nat) (q : Pc E T), (pcs.set t a)[u]? = some q →
      (q.inCS = true ↔ (none : Option Nat) = some u)) ∧
    (∀ u : Nat, (none : Option Nat) = some u →
      ∃ q : Pc E T, (pcs.set t a)[u]? = some q ∧ q.inCS = true) := by
  have hm : m = some t := (h1 t p hp).mp hpcs
  constructor
  · intro u q hq
    rcases getElem?_set_cases pcs t u a q hq with ⟨rfl, rfl⟩ | ⟨hne, hq1⟩
    · simp [ha]
    · have h := h1 u q hq1
      rw [hm] at h
      constructor
      · intro hq2
        exact absurd (Option.some.inj (h.mp hq2)).symm hne
      · intro e
        exact absurd e (by simp)
  · intro u hu
    exact absurd hu (by simp)

/-- Under mutual exclusion, the threads other than the holder of the mutex are
not between lock and release. -/
theorem others_outside (pcs : List (Pc E T)) (m : Option Nat) (t : Nat) (p : Pc E T)
    (hp : pcs[t]? = some p) (hpcs : p.inCS = true)
    (h1 : ∀ (u : Nat) (q : Pc E T), pcs[u]? = some q → (q.inCS = true ↔ m = some u))
    (u : Nat) (q : Pc E T) (hq : pcs[u]? = some q) (hne : u ≠ t) : q.inCS = false := by
  have hm : m = some t := (h1 t p hp).mp hpcs
  cases h : q.inCS
  · rfl
  · have := (h1 u q hq).mp h
    rw [hm] at this
    exact absurd (Option.some.inj this).symm hne

/-- A property of every thread holds after the move of one thread to a point
that has the property, when the other threads have it. -/
theorem forall_set_others {α : Type} (P : α → Prop) (l : List α) (t : Nat) (a : α)
    (h : ∀ (u : Nat) (q : α), l[u]? = some q → u ≠ t → P q) (ha : P a) :
    ∀ (u : Nat) (q : α), (l.set t a)[u]? = some q → P q := by
  intro u q hq
  rcases getElem?_set_cases l t u a q hq with ⟨_, rfl⟩ | ⟨hne, hq1⟩
  · exact ha
  · exact h u q hq1 hne

/-- Every statement of every thread keeps the state sound. -/
theorem sound_move (init : W → Except E T × W) (w0 : W) (log0 : List (Except E T)) (V : T)
    (hV : (init w0).1 = Except.ok V) (n t : Nat) (s : Shared (W × List (Except E T)) E T)
    (hs : s.Sound init w0 log0 V n) : (s.move t).Sound init w0 log0 V n := by
  obtain ⟨hinit, hlen, h1, h2, hph⟩ := hs
  cases hp : s.pcs[t]? with
  | none =>
    have hmv : s.move t = s := by simp only [Shared.move, hp]
    rw [hmv]
    exact ⟨hinit, hlen, h1, h2, hph⟩
  | some p =>
    cases p with
    | start =>
      cases hm : s.mtx_ with
      | some o =>
        have hmv : s.move t = s := by simp only [Shared.move, hp, hm]
        rw [hmv]
        exact ⟨hinit, hlen, h1, h2, hph⟩
      | none =>
        have hmv : s.move t = ⟨s.cell, some t, s.world, s.pcs.set t Pc.testing⟩ := by
          simp only [Shared.move, hp, hm]
        rw [hmv]
        rw [hm] at h1
        obtain ⟨e1, e2⟩ := excl_acquire s.pcs t Pc.testing Pc.start hp rfl h1
        refine ⟨hinit, by simpa using hlen, e1, e2, ?_⟩
        rcases hph with ⟨a, b, c⟩ | ⟨_, _, c, _⟩ | ⟨a, b, c⟩
        · exact Or.inl ⟨a, b, forall_set _ s.pcs t _ c (Or.inr (Or.inl rfl))⟩
        · exact absurd hm c
        · exact Or.inr (Or.inr ⟨a, b, forall_set _ s.pcs t _ c (Or.inr (Or.inl rfl))⟩)
    | testing =>
      rcases hph with ⟨a, b, c⟩ | ⟨_, _, _, d⟩ | ⟨a, b, c⟩
      · have hmv : s.move t = ⟨s.cell, s.mtx_, s.world, s.pcs.set t Pc.calling⟩ := by
          simp only [Shared.move, hp, a]
        rw [hmv]
        obtain ⟨e1, e2⟩ := excl_keep s.pcs s.mtx_ t Pc.calling Pc.testing hp rfl rfl h1
        exact ⟨hinit, by simpa using hlen, e1, e2,
          Or.inl ⟨a, b, forall_set _ s.pcs t _ c (Or.inr (Or.inr rfl))⟩⟩
      · rcases d t _ hp with h | h <;> cases h
      · have hmv : s.move t = ⟨s.cell, s.mtx_, s.world, s.pcs.set t Pc.returning⟩ := by
          simp only [Shared.move, hp, a]
        rw [hmv]
        obtain ⟨e1, e2⟩ := excl_keep s.pcs s.mtx_ t Pc.returning Pc.testing hp rfl rfl h1
        exact ⟨hinit, by simpa using hlen, e1, e2,
          Or.inr (Or.inr ⟨a, b, forall_set _ s.pcs t _ c (Or.inr (Or.inr (Or.inl rfl)))⟩)⟩
    | calling =>
      rcases hph with ⟨a, b, c⟩ | ⟨_, _, _, d⟩ | ⟨_, _, c⟩
      · have hmv : s.move t = ⟨s.cell, s.mtx_, ((init w0).2, log0 ++ [Except.ok V]),
            s.pcs.set t (Pc.assigning V)⟩ := by
          simp only [Shared.move, hp, hinit, b, recorded, hV]
        rw [hmv]
        obtain ⟨e1, e2⟩ := excl_keep s.pcs s.mtx_ t (Pc.assigning V) Pc.calling hp rfl rfl h1
        have hm : s.mtx_ = some t := (h1 t _ hp).mp rfl
        refine ⟨hinit, by simpa using hlen, e1, e2, Or.inr (Or.inl ⟨a, rfl, ?_, ?_⟩)⟩
        · rw [hm]; simp
        · refine forall_set_others _ s.pcs t _ ?_ (Or.inr rfl)
          intro u q hq hne
          have hout := others_outside s.pcs s.mtx_ t _ hp rfl h1 u q hq hne
          rcases c u q hq with h | h | h
          · exact Or.inl h
          · rw [h] at hout; cases hout
          · rw [h] at hout; cases hout
      · rcases d t _ hp with h | h <;> cases h
      · rcases c t _ hp with h | h | h | h <;> cases h
    | assigning v =>
      rcases hph with ⟨_, _, c⟩ | ⟨_, b, _, d⟩ | ⟨_, _, c⟩
      · rcases c t _ hp with h | h | h <;> cases h
      · have hv : v = V := by
          rcases d t _ hp with h | h
          · cases h
          · cases h; rfl
        subst hv
        have hmv : s.move t = ⟨⟨some v, s.cell.init_⟩, s.mtx_, s.world,
            s.pcs.set t Pc.returning⟩ := by
          simp only [Shared.move, hp]
        rw [hmv]
        obtain ⟨e1, e2⟩ := excl_keep s.pcs s.mtx_ t Pc.returning (Pc.assigning v) hp rfl rfl h1
        refine ⟨hinit, by simpa using hlen, e1, e2, Or.inr (Or.inr ⟨rfl, b, ?_⟩)⟩
        refine forall_set_others _ s.pcs t _ ?_ (Or.inr (Or.inr (Or.inl rfl)))
        intro u q hq hne
        have hout := others_outside s.pcs s.mtx_ t _ hp rfl h1 u q hq hne
        rcases d u q hq with h | h
        · exact Or.inl h
        · rw [h] at hout; cases hout
      · rcases c t _ hp with h | h | h | h <;> cases h
    | returning =>
      rcases hph with ⟨_, _, c⟩ | ⟨_, _, _, d⟩ | ⟨a, b, c⟩
      · rcases c t _ hp with h | h | h <;> cases h
      · rcases d t _ hp with h | h <;> cases h
      · have hmv : s.move t = ⟨s.cell, none, s.world, s.pcs.set t (Pc.returned V)⟩ := by
          simp only [Shared.move, hp, a]
        rw [hmv]
        obtain ⟨e1, e2⟩ := excl_release s.pcs s.mtx_ t (Pc.returned V) Pc.returning hp rfl rfl h1
        exact ⟨hinit, by simpa using hlen, e1, e2,
          Or.inr (Or.inr ⟨a, b,
            forall_set _ s.pcs t _ c (Or.inr (Or.inr (Or.inr rfl)))⟩)⟩
    | returned v =>
      have hmv : s.move t = s := by simp only [Shared.move, hp]
      rw [hmv]
      exact ⟨hinit, hlen, h1, h2, hph⟩
    | raisedOut e =>
      have hmv : s.move t = s := by simp only [Shared.move, hp]
      rw [hmv]
      exact ⟨hinit, hlen, h1, h2, hph⟩

/-- The state in which the threads are about to call is sound. -/
theorem sound_spawn (init : W → Except E T × W) (w0 : W) (log0 : List (Except E T)) (V : T)
    (n : Nat) : (Shared.spawn n (watched none init) (w0, log0)).Sound init w0 log0 V n := by
  have hstart : ∀ (t : Nat) (pc : Pc E T),
      (List.replicate n (Pc.start : Pc E T))[t]? = some pc → pc = Pc.start := by
    intro t pc h
    rw [List.getElem?_replicate] at h
    split at h
    · exact (Option.some.inj h).symm
    · exact absurd h (by simp)
  refine ⟨rfl, by simp [Shared.spawn], ?_, ?_, Or.inl ⟨rfl, rfl, ?_⟩⟩
  · intro t pc h
    rw [hstart t pc h]
    simp [Shared.spawn, Pc.inCS]
  · intro t h
    exact absurd h (by simp [Shared.spawn])
  · intro t pc h
    exact Or.inl (hstart t pc h)

/-- Every state of a race is sound. -/
theorem sound_exec (init : W → Except E T × W) (w0 : W) (log0 : List (Except E T)) (V : T)
    (hV : (init w0).1 = Except.ok V) (n : Nat) (sched : List Nat)
    (s : Shared (W × List (Except E T)) E T) (hs : s.Sound init w0 log0 V n) :
    (s.exec sched).Sound init w0 log0 V n := by
  induction sched generalizing s with
  | nil => exact hs
  | cons t ts ih => exact ih (s.move t) (sound_move init w0 log0 V hV n t s hs)

/-- Replacing one entry of a list by one of smaller weight lowers the total
weight. -/
theorem sum_set_lt {α : Type} (f : α → Nat) (l : List α) (t : Nat) (a p : α)
    (hp : l[t]? = some p) (hlt : f a < f p) :
    ((l.set t a).map f).sum < (l.map f).sum := by
  induction l generalizing t with
  | nil => simp at hp
  | cons x xs ih =>
    cases t with
    | zero =>
      simp only [List.getElem?_cons_zero, Option.some.injEq] at hp
      subst hp
      simp only [List.set_cons_zero, List.map_cons, List.sum_cons]
      omega
    | succ k =>
      simp only [List.getElem?_cons_succ] at hp
      have := ih k hp
      simp only [List.set_cons_succ, List.map_cons, List.sum_cons]
      omega

/-- In a sound state, the holder of the mutex, and any thread that has not
started when the mutex is free, executes a statement: it moves on to a point
with fewer statements left. -/
theorem move_advances (init : W → Except E T × W) (w0 : W) (log0 : List (Except E T)) (V : T)
    (hV : (init w0).1 = Except.ok V) (n t : Nat) (s : Shared (W × List (Except E T)) E T)
    (hs : s.Sound init w0 log0 V n) (p : Pc E T) (hp : s.pcs[t]? = some p)
    (hen : p.inCS = true ∨ (p = Pc.start ∧ s.mtx_ = none)) :
    (s.move t).todo < s.todo := by
  obtain ⟨hinit, hlen, h1, h2, hph⟩ := hs
  have key : ∀ a : Pc E T, (s.move t).pcs = s.pcs.set t a → a.todo < p.todo →
      (s.move t).todo < s.todo := by
    intro a ha hlt
    unfold Shared.todo
    rw [ha]
    exact sum_set_lt Pc.todo s.pcs t a p hp hlt
  cases p with
  | start =>
    rcases hen with h | ⟨_, hm⟩
    · cases h
    · exact key Pc.testing (by simp only [Shared.move, hp, hm]) (by simp [Pc.todo])
  | testing =>
    cases hv : s.cell.value_ with
    | none => exact key Pc.calling (by simp only [Shared.move, hp, hv]) (by simp [Pc.todo])
    | some v => exact key Pc.returning (by simp only [Shared.move, hp, hv]) (by simp [Pc.todo])
  | calling =>
    rcases hph with ⟨_, b, _⟩ | ⟨_, _, _, d⟩ | ⟨_, _, c⟩
    · exact key (Pc.assigning V) (by simp only [Shared.move, hp, hinit, b, recorded, hV])
        (by simp [Pc.todo])
    · rcases d t _ hp with h | h <;> cases h
    · rcases c t _ hp with h | h | h | h <;> cases h
  | assigning v => exact key Pc.returning (by simp only [Shared.move, hp]) (by simp [Pc.todo])
  | returning =>
    rcases hph with ⟨_, _, c⟩ | ⟨_, _, _, d⟩ | ⟨a, _, _⟩
    · rcases c t _ hp with h | h | h <;> cases h
    · rcases d t _ hp with h | h <;> cases h
    · exact key (Pc.returned V) (by simp only [Shared.move, hp, a]) (by simp [Pc.todo])
  | returned v =>
    rcases hen with h | ⟨h, _⟩ <;> cases h
  | raisedOut e =>
    rcases hen with h | ⟨h, _⟩ <;> cases h

/-- No deadlock: in a sound state in which some call is not over, some thread
executes a statement. -/
theorem sound_progress (init : W → Except E T × W) (w0 : W) (log0 : List (Except E T)) (V : T)
    (hV : (init w0).1 = Except.ok V) (n : Nat) (s : Shared (W × List (Except E T)) E T)
    (hs : s.Sound init w0 log0 V n) (hfin : s.finished = false) :
    ∃ u : Nat, (s.move u).todo < s.todo := by
  have hs1 := hs
  obtain ⟨_, _, h1, h2, _⟩ := hs1
  cases hm : s.mtx_ with
  | some u =>
    obtain ⟨q, hq, hcs⟩ := h2 u hm
    exact ⟨u, move_advances init w0 log0 V hV n u s hs q hq (Or.inl hcs)⟩
  | none =>
    simp only [Shared.finished, List.all_eq_false] at hfin
    obtain ⟨p, hmem, hnd⟩ := hfin
    obtain ⟨t, ht⟩ := List.getElem?_of_mem hmem
    have hout : p.inCS = false := by
      cases h : p.inCS
      · rfl
      · have := (h1 t p ht).mp h
        rw [hm] at this
        cases this
    have hstart : p = Pc.start := by
      cases p with
      | start => rfl
      | testing => cases hout
      | calling => cases hout
      | assigning v => cases hout
      | returning => cases hout
      | returned v => exact absurd rfl hnd
      | raisedOut e => exact absurd rfl hnd
    exact ⟨t, move_advances init w0 log0 V hV n t s hs p ht (Or.inr ⟨hstart, hm⟩)⟩

/-- Every sound state can be run on until every call is over. -/
theorem sound_terminates (init : W → Except E T × W) (w0 : W) (log0 : List (Except E T))
    (V : T) (hV : (init w0).1 = Except.ok V) (n k : Nat)
    (s : Shared (W × List (Except E T)) E T) (hs : s.Sound init w0 log0 V n)
    (hk : s.todo ≤ k) : ∃ more : List Nat, (s.exec more).finished = true := by
  induction k generalizing s with
  | zero =>
    cases hfin : s.finished with
    | true => exact ⟨[], hfin⟩
    | false =>
      obtain ⟨u, hu⟩ := sound_progress init w0 log0 V hV n s hs hfin
      omega
  | succ k ih =>
    cases hfin : s.finished with
    | true => exact ⟨[], hfin⟩
    | false =>
      obtain ⟨u, hu⟩ := sound_progress init w0 log0 V hV n s hs hfin
      obtain ⟨more, hmore⟩ :=
        ih (s.move u) (sound_move init w0 log0 V hV n u s hs) (by omega)
      exact ⟨u :: more, hmore⟩

/-- In a sound state in which every call is over, every thread has returned
`V`, and if there is a thread at all the initializer has run. -/
theorem sound_finished (init : W → Except E T × W) (w0 : W) (log0 : List (Except E T))
    (V : T) (n : Nat) (s : Shared (W × List (Except E T)) E T)
    (hs : s.Sound init w0 log0 V n) (hfin : s.finished = true) :
    s.pcs = List.replicate n (Pc.returned V) ∧
    (0 < n → s.world = ((init w0).2, log0 ++ [Except.ok V])) := by
  obtain ⟨_, hlen, _, _, hph⟩ := hs
  simp only [Shared.finished, List.all_eq_true] at hfin
  have hall : ∀ pc ∈ s.pcs, pc = Pc.returned V := by
    intro pc hmem
    obtain ⟨t, ht⟩ := List.getElem?_of_mem hmem
    have hd := hfin pc hmem
    rcases hph with ⟨_, _, c⟩ | ⟨_, _, _, d⟩ | ⟨_, _, c⟩
    · rcases c t pc ht with h | h | h <;> rw [h] at hd <;> cases hd
    · rcases d t pc ht with h | h <;> rw [h] at hd <;> cases hd
    · rcases c t pc ht with h | h | h | h
      · rw [h] at hd; cases hd
      · rw [h] at hd; cases hd
      · rw [h] at hd; cases hd
      · exact h
  refine ⟨List.eq_replicate_iff.mpr ⟨hlen, hall⟩, ?_⟩
  intro hn
  have h0 : s.pcs[0]? = some (Pc.returned V) := by
    obtain ⟨hlt, hget⟩ : ∃ h : 0 < s.pcs.length, s.pcs[0] = s.pcs[0] := ⟨by omega, rfl⟩
    rw [List.getElem?_eq_getElem hlt]
    exact congrArg some (hall _ (List.getElem_mem _))
  rcases hph with ⟨_, _, c⟩ | ⟨_, _, _, d⟩ | ⟨_, b, _⟩
  · rcases c 0 _ h0 with h | h | h <;> cases h
  · rcases d 0 _ h0 with h | h <;> cases h
  · exact b

/-- A schedule run in two parts. -/
theorem exec_append (xs ys : List Nat) (s : Shared W E T) :
    s.exec (xs ++ ys) = (s.exec xs).exec ys := by
  induction xs generalizing s with
  | nil => rfl
  | cons x xs ih => exact ih (s.move x)

/-- A single thread that runs alone through the statements of `Get()` leaves
the cell and the world as the member `Get` does and ends with its result. -/
theorem solo_get (c : LazyValue W E T) (w : W) :
    (Shared.spawn 1 c w).exec [0, 0, 0, 0, 0]
      = ⟨(c.Get w).2.1, none, (c.Get w).2.2,
          [match (c.Get w).1 with
            | Except.ok v => Pc.returned v
            | Except.error e => Pc.raisedOut e]⟩ := by
  rcases c with ⟨slot, f⟩
  cases slot with
  | some v => rfl
  | none =>
    rcases h : f w with ⟨r, w1⟩
    cases r with
    | ok v => simp [Shared.spawn, Shared.exec, Shared.move, LazyValue.Get, h]
    | error e => simp [Shared.spawn, Shared.exec, Shared.move, LazyValue.Get, h]

/-- C7 (concurrent single-flight).  Let `n` threads each call `Get()` on one
cell with an empty slot, the initializer returning `V` in the world in which
the cell is used, and let the threads execute their statements in the order of
any schedule `sched`.  In the state reached: the initializer has been invoked
not at all or exactly once, returning `V`; every thread whose call has returned
got `V`, and by then the slot holds `V` and the initializer has been invoked
exactly once; no call was left by an exception; at most one thread is between
lock and release.  If every call is over, every thread has returned `V` and,
when there is a thread at all, the initializer has been invoked exactly once.
If some call is not over, some thread can execute a statement, and the
schedule can be continued so that every call is over.  With the initializer
that increments a shared counter and returns its new value, the counter
starting at `0`: once every call of `n > 0` threads is over the counter is `1`,
the initializer ran once and every thread got `1`. -/
theorem concurrent_single_flight (init : W → Except E T × W) (w0 : W)
    (log0 : List (Except E T)) (V : T) (hV : (init w0).1 = Except.ok V) (n : Nat)
    (sched : List Nat) :
    ((race init n sched (w0, log0)).world = (w0, log0) ∨
      (race init n sched (w0, log0)).world = ((init w0).2, log0 ++ [Except.ok V])) ∧
    (∀ (t : Nat) (v : T), (race init n sched (w0, log0)).pcs[t]? = some (Pc.returned v) →
      v = V ∧ (race init n sched (w0, log0)).cell.value_ = some V ∧
      (race init n sched (w0, log0)).world = ((init w0).2, log0 ++ [Except.ok V])) ∧
    (∀ (t : Nat) (e : E), (race init n sched (w0, log0)).pcs[t]? ≠ some (Pc.raisedOut e)) ∧
    (∀ (t u : Nat) (p q : Pc E T), (race init n sched (w0, log0)).pcs[t]? = some p →
      (race init n sched (w0, log0)).pcs[u]? = some q →
      p.inCS = true → q.inCS = true → t = u) ∧
    ((race init n sched (w0, log0)).finished = true →
      (race init n sched (w0, log0)).pcs = List.replicate n (Pc.returned V) ∧
      (0 < n →
        (race init n sched (w0, log0)).world = ((init w0).2, log0 ++ [Except.ok V]))) ∧
    ((race init n sched (w0, log0)).finished = false →
      ∃ u : Nat, ((race init n sched (w0, log0)).move u).todo
        < (race init n sched (w0, log0)).todo) ∧
    (∃ more : List Nat, (race init n (sched ++ more) (w0, log0)).finished = true) ∧
    ((race (counting : Nat → Except E Nat × Nat) n sched (0, [])).finished = true → 0 < n →
      (race (counting : Nat → Except E Nat × Nat) n sched (0, [])).world
        = (1, [Except.ok 1]) ∧
      (race (counting : Nat → Except E Nat × Nat) n sched (0, [])).pcs
        = List.replicate n (Pc.returned 1)) := by
  have hs : (race init n sched (w0, log0)).Sound init w0 log0 V n :=
    sound_exec init w0 log0 V hV n sched _ (sound_spawn init w0 log0 V n)
  have hs1 := hs
  obtain ⟨_, _, h1, _, hph⟩ := hs1
  refine ⟨?_, ?_, ?_, ?_, ?_, ?_, ?_, ?_⟩
  · rcases hph with ⟨_, b, _⟩ | ⟨_, b, _, _⟩ | ⟨_, b, _⟩
    · exact Or.inl b
    · exact Or.inr b
    · exact Or.inr b
  · intro t v ht
    rcases hph with ⟨_, _, c⟩ | ⟨_, _, _, d⟩ | ⟨a, b, c⟩
    · rcases c t _ ht with h | h | h <;> cases h
    · rcases d t _ ht with h | h <;> cases h
    · rcases c t _ ht with h | h | h | h
      · cases h
      · cases h
      · cases h
      · cases h
        exact ⟨rfl, a, b⟩
  · intro t e ht
    rcases hph with ⟨_, _, c⟩ | ⟨_, _, _, d⟩ | ⟨_, _, c⟩
    · rcases c t _ ht with h | h | h <;> cases h
    · rcases d t _ ht with h | h <;> cases h
    · rcases c t _ ht with h | h | h | h <;> cases h
  · intro t u p q hp hq hpc hqc
    have e1 := (h1 t p hp).mp hpc
    have e2 := (h1 u q hq).mp hqc
    rw [e1] at e2
    exact Option.some.inj e2
  · exact sound_finished init w0 log0 V n _ hs
  · exact sound_progress init w0 log0 V hV n _ hs
  · obtain ⟨more, hmore⟩ := sound_terminates init w0 log0 V hV n _ _ hs (Nat.le_refl _)
    refine ⟨more, ?_⟩
    unfold race
    rw [exec_append]
    exact hmore
  · intro hfin hn
    have hc : (race (counting : Nat → Except E Nat × Nat) n sched (0, [])).Sound
        counting 0 [] 1 n :=
      sound_exec counting 0 [] 1 rfl n sched _ (sound_spawn counting 0 [] 1 n)
    obtain ⟨e1, e2⟩ := sound_finished counting 0 [] 1 n _ hc hfin
    exact ⟨e2 hn, e1⟩

set_option maxRecDepth 20000 in
/-- Eight threads race on one cell whose initializer increments a shared
counter and returns its new value, under a schedule in which thread `2` takes
the mutex first and the others wait, attempt and follow in turn: every call
ends, every thread got `1`, and the counter is `1` after a single
invocation. -/
theorem concurrent_single_flight_witness :
    ((counting : Nat → Except Unit Nat × Nat) 0).1 = Except.ok 1 ∧
    (race (counting : Nat → Except Unit Nat × Nat) 8
        [2, 0, 1, 0, 0, 6, 1, 1, 0, 3, 6, 3, 2, 6, 1, 2, 3, 1, 2, 0, 2, 4, 7, 4, 4, 3, 1, 3,
          7, 3, 0, 7, 0, 5, 0, 6, 1, 6, 5, 6, 1, 5, 1, 7, 1, 7, 7, 7, 5, 5, 5]
        (0, [])).finished = true ∧
    (race (counting : Nat → Except Unit Nat × Nat) 8
        [2, 0, 1, 0, 0, 6, 1, 1, 0, 3, 6, 3, 2, 6, 1, 2, 3, 1, 2, 0, 2, 4, 7, 4, 4, 3, 1, 3,
          7, 3, 0, 7, 0, 5, 0, 6, 1, 6, 5, 6, 1, 5, 1, 7, 1, 7, 7, 7, 5, 5, 5]
        (0, [])).pcs = List.replicate 8 (Pc.returned 1) ∧
    ((0 : Nat) < 8 →
      (race (counting : Nat → Except Unit Nat × Nat) 8
        [2, 0, 1, 0, 0, 6, 1, 1, 0, 3, 6, 3, 2, 6, 1, 2, 3, 1, 2, 0, 2, 4, 7, 4, 4, 3, 1, 3,
          7, 3, 0, 7, 0, 5, 0, 6, 1, 6, 5, 6, 1, 5, 1, 7, 1, 7, 7, 7, 5, 5, 5]
        (0, [])).world
        = (((counting : Nat → Except Unit Nat × Nat) 0).2, [] ++ [Except.ok 1])) :=
  ⟨rfl, rfl,
    (concurrent_single_flight (counting : Nat → Except Unit Nat × Nat) 0 [] 1 rfl 8
      [2, 0, 1, 0, 0, 6, 1, 1, 0, 3, 6, 3, 2, 6, 1, 2, 3, 1, 2, 0, 2, 4, 7, 4, 4, 3, 1, 3,
        7, 3, 0, 7, 0, 5, 0, 6, 1, 6, 5, 6, 1, 5, 1, 7, 1, 7, 7, 7, 5, 5, 5]).2.2.2.2.1
      rfl⟩

end LazyInit

/-! ## Properties of `UniquePtr<Item>` -/

namespace UniquePointer

/-- Deleting a pointer to the live object at `o`. -/
theorem delete_live (s : Store) (o : Nat) (h : o ∈ s.live) :
    s.delete (some o) = some ⟨s.live.erase o, s.item, s.counter - 1⟩ := by
  simp only [Store.delete, h, if_true]

/-- Creating an object at an address that holds no live object. -/
theorem newItem_fresh (s : Store) (a : Nat) (v : Int) (h : a ∉ s.live) :
    s.newItem a v
      = some (some a, ⟨insert a s.live, Function.update s.item a ⟨v⟩, s.counter + 1⟩) := by
  simp only [Store.newItem, h, if_false]

/-- C8 (`Reset`).  Let the smart pointer hold `old`, null or pointing to a
live object, and let `ptr` be a pointer other than `old`.  Then `Reset(ptr)` is
defined, afterwards `Get()` returns `ptr`, the live objects are those that
were live before except the one `old` pointed to, their contents are
unchanged, and `Item::counter` went down by one if `old` was not null and is
unchanged otherwise.  Moreover, if `old` is not null and an object is created
by `new Item(v)` at a fresh address `a`, then after `Reset` to it the number
of live objects and the counter are what they were before the creation, and
destroying the smart pointer then destroys the object at `a` and nothing else,
which takes them one down: to `0` when they were `1`. -/
theorem reset_captures (s : Store) (u : UniquePtr) (ptr : Ptr) (a : Nat) (v : Int)
    (hold : s.deletable u.raw_pointer_ = true) (hne : ptr ≠ u.raw_pointer_) :
    (∃ s1, u.Reset ptr s = some (⟨ptr⟩, s1) ∧
      ((⟨ptr⟩ : UniquePtr).Get s1).1 = ptr ∧
      (∀ b, b ∈ s1.live ↔ b ∈ s.live ∧ some b ≠ u.raw_pointer_) ∧
      s1.item = s.item ∧
      s1.counter = s.counter - (if u.raw_pointer_ = none then 0 else 1)) ∧
    (u.raw_pointer_ ≠ none → a ∉ s.live →
      ∃ s1 s2 s3, s.newItem a v = some (some a, s1) ∧
        u.Reset (some a) s1 = some (⟨some a⟩, s2) ∧
        s2.live.card = s.live.card ∧ s2.counter = s.counter ∧
        (s2.value (some a) = some v) ∧
        (⟨some a⟩ : UniquePtr).destroy s2 = some s3 ∧
        (∀ b, b ∈ s3.live ↔ b ∈ s2.live ∧ b ≠ a) ∧
        s3.live.card + 1 = s.live.card ∧ s3.counter = s.counter - 1 ∧
        (s.counter = 1 → s3.counter = 0) ∧ (s.live.card = 1 → s3.live = ∅)) := by
  rcases u with ⟨old⟩
  cases old with
  | none =>
    refine ⟨⟨s, rfl, rfl, ?_, rfl, by simp⟩, fun h => absurd rfl h⟩
    intro b
    simp
  | some o =>
    have ho : o ∈ s.live := by simpa [Store.deletable] using hold
    refine ⟨⟨⟨s.live.erase o, s.item, s.counter - 1⟩, ?_, rfl, ?_, rfl, by simp⟩, ?_⟩
    · simp only [UniquePtr.Reset, delete_live s o ho]
    · intro b
      simp only [Finset.mem_erase, ne_eq, Option.some.injEq]
      tauto
    · intro _ ha
      have hao : a ≠ o := fun h => ha (h ▸ ho)
      have ho1 : o ∈ insert a s.live := Finset.mem_insert_of_mem ho
      have ha2 : a ∈ (insert a s.live).erase o :=
        Finset.mem_erase.mpr ⟨hao, Finset.mem_insert_self a s.live⟩
      have hcard2 : ((insert a s.live).erase o).card = s.live.card := by
        rw [Finset.card_erase_of_mem ho1, Finset.card_insert_of_not_mem ha]
        omega
      have hcard3 : (((insert a s.live).erase o).erase a).card + 1 = s.live.card := by
        rw [Finset.card_erase_of_mem ha2, hcard2]
        have : 0 < s.live.card := Finset.card_pos.mpr ⟨o, ho⟩
        omega
      refine ⟨⟨insert a s.live, Function.update s.item a ⟨v⟩, s.counter + 1⟩,
        ⟨(insert a s.live).erase o, Function.update s.item a ⟨v⟩, s.counter + 1 - 1⟩,
        ⟨((insert a s.live).erase o).erase a, Function.update s.item a ⟨v⟩,
          s.counter + 1 - 1 - 1⟩,
        newItem_fresh s a v ha, ?_, hcard2, by simp, ?_, ?_, ?_, hcard3, by simp, ?_, ?_⟩
      · simp only [UniquePtr.Reset, Store.delete, ho1, if_true]
      · simp only [Store.value, ha2, if_true, Function.update_same]
      · simp only [UniquePtr.destroy, Store.delete, ha2, if_true]
      · intro b
        simp only [Finset.mem_erase, ne_eq]
        tauto
      · intro h1
        simp only [h1]
        norm_num
      · intro h1
        apply Finset.card_eq_zero.mp
        show (((insert a s.live).erase o).erase a).card = 0
        omega

/-- The scenario of the first block of `TestLifetime`: the smart pointer owns
the only object, at address `1`, and is reset to a new object at address `2`. -/
theorem reset_captures_witness :
    Store.deletable ⟨{1}, fun _ => ⟨0⟩, 1⟩ (UniquePtr.construct (some 1)).raw_pointer_ = true ∧
    (some 2 : Ptr) ≠ (UniquePtr.construct (some 1)).raw_pointer_ ∧
    (∃ s1, (UniquePtr.construct (some 1)).Reset (some 2) ⟨{1}, fun _ => ⟨0⟩, 1⟩
        = some (⟨some 2⟩, s1) ∧
      ((⟨some 2⟩ : UniquePtr).Get s1).1 = some 2 ∧
      (∀ b, b ∈ s1.live ↔
        b ∈ ({1} : Finset Nat) ∧ some b ≠ (UniquePtr.construct (some 1)).raw_pointer_) ∧
      s1.item = (fun _ => ⟨0⟩) ∧
      s1.counter
        = 1 - (if (UniquePtr.construct (some 1)).raw_pointer_ = none then 0 else 1)) ∧
    (∃ s1 s2 s3, Store.newItem ⟨{1}, fun _ => ⟨0⟩, 1⟩ 2 0 = some (some 2, s1) ∧
      (UniquePtr.construct (some 1)).Reset (some 2) s1 = some (⟨some 2⟩, s2) ∧
      s2.live.card = ({1} : Finset Nat).card ∧ s2.counter = 1 ∧
      (s2.value (some 2) = some 0) ∧
      (⟨some 2⟩ : UniquePtr).destroy s2 = some s3 ∧
      (∀ b, b ∈ s3.live ↔ b ∈ s2.live ∧ b ≠ 2) ∧
      s3.live.card + 1 = ({1} : Finset Nat).card ∧ s3.counter = 1 - 1 ∧
      ((1 : Int) = 1 → s3.counter = 0) ∧ (({1} : Finset Nat).card = 1 → s3.live = ∅)) :=
  ⟨by decide, by decide,
    (reset_captures ⟨{1}, fun _ => ⟨0⟩, 1⟩ (UniquePtr.construct (some 1)) (some 2) 2 0
      (by decide) (by decide)).1,
    (reset_captures ⟨{1}, fun _ => ⟨0⟩, 1⟩ (UniquePtr.construct (some 1)) (some 2) 2 0
      (by decide) (by decide)).2 (by decide) (by decide)⟩

/-- C9 (`Release`).  For a smart pointer holding any pointer, `Release()`
returns that pointer, leaves the smart pointer holding `nullptr` (so `Get()`
returns `nullptr`) and leaves the store as it was: no object is destroyed.
Destroying the smart pointer afterwards leaves the store as it was.  If the
pointer held was the address `a` of a live object, that object is still alive
after `Release()` and after the destruction of the smart pointer; `delete` on
the returned pointer destroys exactly that object and takes `Item::counter`
one down; and the smart pointer destroyed after or before that `delete`
destroys nothing more. -/
theorem release_keeps_object (s : Store) (u : UniquePtr) (a : Nat) :
    u.Release s = (u.raw_pointer_, ⟨none⟩, s) ∧
    ((u.Release s).2.1.Get (u.Release s).2.2).1 = none ∧
    (u.Release s).2.1.destroy (u.Release s).2.2 = some s ∧
    (u.raw_pointer_ = some a → a ∈ s.live →
      a ∈ (u.Release s).2.2.live ∧
      ∃ s1, (u.Release s).2.2.delete (u.Release s).1 = some s1 ∧
        (∀ b, b ∈ s1.live ↔ b ∈ s.live ∧ b ≠ a) ∧
        s1.item = s.item ∧ s1.counter = s.counter - 1 ∧
        (u.Release s).2.1.destroy s1 = some s1 ∧
        ((u.Release s).2.1.destroy (u.Release s).2.2).bind
          (fun s2 => s2.delete (u.Release s).1) = some s1) := by
  refine ⟨rfl, rfl, rfl, ?_⟩
  intro hu ha
  refine ⟨ha, ⟨s.live.erase a, s.item, s.counter - 1⟩, ?_, ?_, rfl, rfl, rfl, ?_⟩
  · simp only [UniquePtr.Release, hu, delete_live s a ha]
  · intro b
    simp only [Finset.mem_erase, ne_eq]
    tauto
  · simp only [UniquePtr.Release, UniquePtr.destroy, Store.delete, hu, Option.some_bind,
      ha, if_true]

/-- The scenario of the second block of `TestLifetime`: the smart pointer owns
the only object, at address `1`; it is released and the returned pointer is
deleted. -/
theorem release_keeps_object_witness :
    (UniquePtr.construct (some 1)).raw_pointer_ = some 1 ∧
    1 ∈ (⟨{1}, fun _ => ⟨0⟩, 1⟩ : Store).live ∧
    1 ∈ ((UniquePtr.construct (some 1)).Release ⟨{1}, fun _ => ⟨0⟩, 1⟩).2.2.live ∧
    ∃ s1, ((UniquePtr.construct (some 1)).Release ⟨{1}, fun _ => ⟨0⟩, 1⟩).2.2.delete
          ((UniquePtr.construct (some 1)).Release ⟨{1}, fun _ => ⟨0⟩, 1⟩).1 = some s1 ∧
      (∀ b, b ∈ s1.live ↔ b ∈ ({1} : Finset Nat) ∧ b ≠ 1) ∧
      s1.item = (fun _ => ⟨0⟩) ∧ s1.counter = 1 - 1 ∧
      ((UniquePtr.construct (some 1)).Release ⟨{1}, fun _ => ⟨0⟩, 1⟩).2.1.destroy s1 = some s1 ∧
      (((UniquePtr.construct (some 1)).Release ⟨{1}, fun _ => ⟨0⟩, 1⟩).2.1.destroy
          ((UniquePtr.construct (some 1)).Release ⟨{1}, fun _ => ⟨0⟩, 1⟩).2.2).bind
        (fun s2 => s2.delete ((UniquePtr.construct (some 1)).Release ⟨{1}, fun _ => ⟨0⟩, 1⟩).1)
        = some s1 :=
  ⟨rfl, by decide,
    (release_keeps_object ⟨{1}, fun _ => ⟨0⟩, 1⟩ (UniquePtr.construct (some 1)) 1).2.2.2
      rfl (by decide)⟩

/-- C10 (accessors agree).  For a smart pointer constructed from the non-null
pointer `some a`, in any store: `Get()` and `operator->` return `some a` and
leave the smart pointer and the store as they were.  If `a` is the address of
a live object, `operator*` is defined, returns the reference to the object at
`a` and leaves the smart pointer and the store as they were, and `value` read
through `Get()`, through `operator->` and through `operator*` is the `value`
of the object at `a`.  If the object was created by `new Item(v)` at `a`, all
three read `v`. -/
theorem accessors_agree (s : Store) (a : Nat) (v : Int) :
    (UniquePtr.construct (some a)).Get s = (some a, UniquePtr.construct (some a), s) ∧
    (UniquePtr.construct (some a)).arrow s = (some a, UniquePtr.construct (some a), s) ∧
    (a ∈ s.live →
      (UniquePtr.construct (some a)).star s = some (a, UniquePtr.construct (some a), s) ∧
      s.value ((UniquePtr.construct (some a)).Get s).1 = some (s.item a).value ∧
      s.value ((UniquePtr.construct (some a)).arrow s).1 = some (s.item a).value ∧
      ((UniquePtr.construct (some a)).star s).bind (fun r => r.2.2.value (some r.1))
        = some (s.item a).value) ∧
    (a ∉ s.live →
      ∃ s1, s.newItem a v = some (some a, s1) ∧
        s1.value ((UniquePtr.construct (some a)).Get s1).1 = some v ∧
        s1.value ((UniquePtr.construct (some a)).arrow s1).1 = some v ∧
        ((UniquePtr.construct (some a)).star s1).bind (fun r => r.2.2.value (some r.1))
          = some v) := by
  refine ⟨rfl, rfl, ?_, ?_⟩
  · intro ha
    simp only [UniquePtr.star, UniquePtr.construct, UniquePtr.Get, UniquePtr.arrow,
      Store.value, ha, if_true, Option.some_bind, and_self]
  · intro ha
    refine ⟨⟨insert a s.live, Function.update s.item a ⟨v⟩, s.counter + 1⟩,
      newItem_fresh s a v ha, ?_⟩
    simp only [UniquePtr.star, UniquePtr.construct, UniquePtr.Get, UniquePtr.arrow,
      Store.value, Finset.mem_insert_self, if_true, Option.some_bind, Function.update_same,
      and_self]

/-- The scenario of `TestGetters`: the object is created by `new Item(42)` at
address `1` in the initial store and handed to the constructor; the three
accessors read `42`. -/
theorem accessors_agree_witness :
    1 ∉ Store.initial.live ∧
    (∃ s1, Store.initial.newItem 1 42 = some (some 1, s1) ∧
      s1.value ((UniquePtr.construct (some 1)).Get s1).1 = some 42 ∧
      s1.value ((UniquePtr.construct (some 1)).arrow s1).1 = some 42 ∧
      ((UniquePtr.construct (some 1)).star s1).bind (fun r => r.2.2.value (some r.1))
        = some 42) ∧
    1 ∈ (⟨{1}, fun _ => ⟨42⟩, 1⟩ : Store).live ∧
    ((UniquePtr.construct (some 1)).star ⟨{1}, fun _ => ⟨42⟩, 1⟩
        = some (1, UniquePtr.construct (some 1), ⟨{1}, fun _ => ⟨42⟩, 1⟩) ∧
      Store.value ⟨{1}, fun _ => ⟨42⟩, 1⟩
        ((UniquePtr.construct (some 1)).Get ⟨{1}, fun _ => ⟨42⟩, 1⟩).1 = some 42 ∧
      Store.value ⟨{1}, fun _ => ⟨42⟩, 1⟩
        ((UniquePtr.construct (some 1)).arrow ⟨{1}, fun _ => ⟨42⟩, 1⟩).1 = some 42 ∧
      ((UniquePtr.construct (some 1)).star ⟨{1}, fun _ => ⟨42⟩, 1⟩).bind
        (fun r => r.2.2.value (some r.1)) = some 42) :=
  ⟨by decide, (accessors_agree Store.initial 1 42).2.2.2 (by decide), by decide,
    (accessors_agree ⟨{1}, fun _ => ⟨42⟩, 1⟩ 1 42).2.2.1 (by decide)⟩

/-- C11 (move constructor).  Let `other` hold any pointer, null or not, and
let the new object be constructed at a place `self` other than that of
`other`, whatever indeterminate value `junk` its member starts with.  After the
move construction the new object holds the pointer `other` held, `other` holds
`nullptr`, every other smart pointer is as it was, and the store is as it was:
no object is destroyed.  Ownership has passed: destroying the new object does
what destroying `other` would have done before, and destroying `other` now
leaves the store as it is. -/
theorem move_constructor_takes_ownership (junk : Ptr) (self other : Nat) (m : Frame)
    (s : Store) (hne : self ≠ other) :
    (((UniquePtr.moveConstruct junk self other m s).1 self).Get
        (UniquePtr.moveConstruct junk self other m s).2).1 = (m other).raw_pointer_ ∧
    (((UniquePtr.moveConstruct junk self other m s).1 other).Get
        (UniquePtr.moveConstruct junk self other m s).2).1 = none ∧
    (UniquePtr.moveConstruct junk self other m s).1
      = Function.update (Function.update m self (m other)) other ⟨none⟩ ∧
    (UniquePtr.moveConstruct junk self other m s).2 = s ∧
    ((UniquePtr.moveConstruct junk self other m s).1 self).destroy
        (UniquePtr.moveConstruct junk self other m s).2 = (m other).destroy s ∧
    ((UniquePtr.moveConstruct junk self other m s).1 other).destroy
        (UniquePtr.moveConstruct junk self other m s).2 = some s := by
  have h : UniquePtr.moveConstruct junk self other m s
      = (Function.update (Function.update m self (m other)) other ⟨none⟩, s) := by
    simp only [UniquePtr.moveConstruct, hne, if_false, Function.update_idem,
      Function.update_noteq (Ne.symm hne)]
  have hself : Function.update (Function.update m self (m other)) other ⟨none⟩ self
      = m other := by
    rw [Function.update_noteq hne, Function.update_same]
  have hother : Function.update (Function.update m self (m other)) other
      (⟨none⟩ : UniquePtr) other = ⟨none⟩ := Function.update_same _ _ _
  refine ⟨?_, ?_, ?_, ?_, ?_, ?_⟩
  · rw [h]; simp only [UniquePtr.Get, hself]
  · rw [h]; simp only [UniquePtr.Get, hother]
  · rw [h]
  · rw [h]
  · rw [h]; simp only [hself]
  · rw [h]; simp only [hother]; rfl

/-- A smart pointer at place `1` move-constructed from the one at place `0`,
which owns the only object, at address `7`; the storage of the new object
holds the stray address `3` beforehand. -/
theorem move_constructor_takes_ownership_witness :
    (1 : Nat) ≠ 0 ∧
    (((UniquePtr.moveConstruct (some 3) 1 0 (fun _ => ⟨some 7⟩)
          ⟨{7}, fun _ => ⟨0⟩, 1⟩).1 1).Get
        (UniquePtr.moveConstruct (some 3) 1 0 (fun _ => ⟨some 7⟩)
          ⟨{7}, fun _ => ⟨0⟩, 1⟩).2).1
      = ((fun _ => ⟨some 7⟩ : Frame) 0).raw_pointer_ ∧
    (((UniquePtr.moveConstruct (some 3) 1 0 (fun _ => ⟨some 7⟩)
          ⟨{7}, fun _ => ⟨0⟩, 1⟩).1 0).Get
        (UniquePtr.moveConstruct (some 3) 1 0 (fun _ => ⟨some 7⟩)
          ⟨{7}, fun _ => ⟨0⟩, 1⟩).2).1
      = none :=
  ⟨by decide,
    (move_constructor_takes_ownership (some 3) 1 0 (fun _ => ⟨some 7⟩)
      ⟨{7}, fun _ => ⟨0⟩, 1⟩ (by decide)).1,
    (move_constructor_takes_ownership (some 3) 1 0 (fun _ => ⟨some 7⟩)
      ⟨{7}, fun _ => ⟨0⟩, 1⟩ (by decide)).2.1⟩

/-- The frame `Swap` leaves, place by place. -/
theorem swap_apply (a b k : Nat) (m : Frame) (s : Store) :
    (UniquePtr.Swap a b m s).1 k = if k = a then m b else if k = b then m a else m k := by
  simp only [UniquePtr.Swap, Function.update_apply]

/-- C12 (`Swap`).  For smart pointers at the places `a` and `b` of a frame, the
same place or not: after `a.Swap(b)` the one at `a` holds the pointer the one
at `b` held and the one at `b` holds the pointer the one at `a` held, every
other smart pointer is as it was, and the store is as it was: no object is
destroyed.  Consequently `a.Swap(b)` done twice gives back the frame and store
it started from, `b.Swap(a)` has the effect of `a.Swap(b)`, and `a.Swap(a)`
changes nothing. -/
theorem swap_exchanges (a b : Nat) (m : Frame) (s : Store) :
    (((UniquePtr.Swap a b m s).1 a).Get (UniquePtr.Swap a b m s).2).1
      = (m b).raw_pointer_ ∧
    (((UniquePtr.Swap a b m s).1 b).Get (UniquePtr.Swap a b m s).2).1
      = (m a).raw_pointer_ ∧
    (UniquePtr.Swap a b m s).1 = Function.update (Function.update m b (m a)) a (m b) ∧
    (UniquePtr.Swap a b m s).2 = s ∧
    UniquePtr.Swap a b (UniquePtr.Swap a b m s).1 (UniquePtr.Swap a b m s).2 = (m, s) ∧
    UniquePtr.Swap b a m s = UniquePtr.Swap a b m s ∧
    UniquePtr.Swap a a m s = (m, s) := by
  have hframe : ∀ (x y : Nat) (f : Frame) (t : Store),
      UniquePtr.Swap x y f t = ((UniquePtr.Swap x y f t).1, t) := fun _ _ _ _ => rfl
  refine ⟨?_, ?_, rfl, rfl, ?_, ?_, ?_⟩
  · simp only [UniquePtr.Get, swap_apply, if_true]
  · simp only [UniquePtr.Get, swap_apply, if_true]
    split
    · next h => rw [h]
    · rfl
  · rw [hframe a b (UniquePtr.Swap a b m s).1 (UniquePtr.Swap a b m s).2]
    refine Prod.ext (funext fun k => ?_) rfl
    simp only [swap_apply, if_true]
    split_ifs <;> subst_vars <;> rfl
  · rw [hframe b a m s, hframe a b m s]
    refine Prod.ext (funext fun k => ?_) rfl
    simp only [swap_apply]
    split_ifs <;> subst_vars <;> rfl
  · rw [hframe a a m s]
    refine Prod.ext (funext fun k => ?_) rfl
    simp only [swap_apply]
    split_ifs <;> subst_vars <;> rfl

/-- C13 (assignment from `nullptr`).  Let the smart pointer hold `p`, null or
pointing to a live object.  Then the assignment of `nullptr` is defined,
afterwards `Get()` returns `nullptr`, the live objects are those that were
live before except the one `p` pointed to, their contents are unchanged, and
`Item::counter` went down by one if `p` was not null and is unchanged
otherwise.  A second assignment of `nullptr` is defined and leaves the smart
pointer and the store as the first left them. -/
theorem assign_nullptr_empties (s : Store) (u : UniquePtr)
    (hp : s.deletable u.raw_pointer_ = true) :
    ∃ u1 s1, u.assignNullptr s = some (u1, s1) ∧
      (u1.Get s1).1 = none ∧
      (∀ b, b ∈ s1.live ↔ b ∈ s.live ∧ some b ≠ u.raw_pointer_) ∧
      s1.item = s.item ∧
      s1.counter = s.counter - (if u.raw_pointer_ = none then 0 else 1) ∧
      u1.assignNullptr s1 = some (u1, s1) := by
  rcases u with ⟨p⟩
  cases p with
  | none =>
    refine ⟨⟨none⟩, s, rfl, rfl, ?_, rfl, by simp, rfl⟩
    intro b
    simp
  | some o =>
    have ho : o ∈ s.live := by simpa [Store.deletable] using hp
    refine ⟨⟨none⟩, ⟨s.live.erase o, s.item, s.counter - 1⟩, ?_, rfl, ?_, rfl, by simp, rfl⟩
    · simp only [UniquePtr.assignNullptr, delete_live s o ho]
    · intro b
      simp only [Finset.mem_erase, ne_eq, Option.some.injEq]
      tauto

/-- A smart pointer owning the only object, at address `1`, is assigned
`nullptr`: the object is destroyed and `Item::counter` goes from `1` to `0`. -/
theorem assign_nullptr_empties_witness :
    Store.deletable ⟨{1}, fun _ => ⟨0⟩, 1⟩ (UniquePtr.construct (some 1)).raw_pointer_ = true ∧
    ∃ u1 s1, (UniquePtr.construct (some 1)).assignNullptr ⟨{1}, fun _ => ⟨0⟩, 1⟩
        = some (u1, s1) ∧
      (u1.Get s1).1 = none ∧
      (∀ b, b ∈ s1.live ↔
        b ∈ ({1} : Finset Nat) ∧ some b ≠ (UniquePtr.construct (some 1)).raw_pointer_) ∧
      s1.item = (fun _ => ⟨0⟩) ∧
      s1.counter
        = 1 - (if (UniquePtr.construct (some 1)).raw_pointer_ = none then 0 else 1) ∧
      u1.assignNullptr s1 = some (u1, s1) :=
  ⟨by decide,
    assign_nullptr_empties ⟨{1}, fun _ => ⟨0⟩, 1⟩ (UniquePtr.construct (some 1)) (by decide)⟩

end UniquePointer
